import Mathlib

/-!
Verification of the FashionMNIST classifier walkthrough.

The repository defines a feed-forward classifier: `nn.Flatten` turning each
28×28 image into a 784-vector, a `nn.Sequential` pipeline of
`nn.Linear`/`nn.ReLU` layers ending in 10 logits, `nn.Softmax` over the class
dimension, and a one-hot `target_transform` for labels.  Tensors are embedded
as (nested) lists of reals; a batch is a list of samples.
-/

/-- Dot product of two vectors, the elementwise-product sum used by the
linear layer. -/
def dot (u v : List ℝ) : ℝ := (List.zipWith (fun a b => a * b) u v).sum

namespace nn

/-- `nn.Linear(W, b)` applied to one sample `x`: row `j` of the output is
`dot x (row j of W) + b j`, i.e. `x · Wᵀ + b`. -/
def Linear (W : List (List ℝ)) (b : List ℝ) (x : List ℝ) : List ℝ :=
  (W.zip b).map (fun p => dot x p.1 + p.2)

/-- `nn.Linear` applied to a batch: each sample row is transformed
independently. -/
def LinearBatch (W : List (List ℝ)) (b : List ℝ) (X : List (List ℝ)) :
    List (List ℝ) :=
  X.map (Linear W b)

/-- `nn.ReLU`: elementwise `max 0`. -/
def ReLU (x : List ℝ) : List ℝ := x.map (fun a => max 0 a)

/-- `nn.Flatten(start_dim=1)`: every sample's 2-D grid is concatenated
row-after-row into one vector; the batch dimension is untouched. -/
def Flatten (batch : List (List (List ℝ))) : List (List ℝ) :=
  batch.map List.flatten

/-- `nn.Softmax` on one vector along its axis:
`output i = exp (input i) / Σ exp (input j)`. -/
noncomputable def Softmax (v : List ℝ) : List ℝ :=
  v.map (fun a => Real.exp a / (v.map Real.exp).sum)

end nn

/-- One step of the sequential pipeline, as in the spec's design note: a
polymorphic layer value, either a linear transform or the activation. -/
inductive Layer
  | linear (W : List (List ℝ)) (b : List ℝ)
  | relu

/-- A layer applied to one sample. -/
def Layer.apply : Layer → List ℝ → List ℝ
  | Layer.linear W b, x => nn.Linear W b x
  | Layer.relu, x => nn.ReLU x

namespace nn

/-- `nn.Sequential`: the input is threaded through the layers in list order,
output of step k being the input of step k+1. -/
def Sequential (layers : List Layer) (x : List ℝ) : List ℝ :=
  layers.foldl (fun v l => l.apply v) x

end nn

/-- The `NeuralNetwork.layout` pipeline:
`Linear(784,512), ReLU, Linear(512,512), ReLU, Linear(512,10)`,
with the weights and biases as explicit parameters. -/
def NeuralNetwork.layout (W1 : List (List ℝ)) (b1 : List ℝ)
    (W2 : List (List ℝ)) (b2 : List ℝ)
    (W3 : List (List ℝ)) (b3 : List ℝ) : List Layer :=
  [Layer.linear W1 b1, Layer.relu, Layer.linear W2 b2, Layer.relu,
   Layer.linear W3 b3]

/-- `NeuralNetwork.forward`: flatten the batch, then run the sequential
pipeline on every sample. -/
def NeuralNetwork.forward (W1 : List (List ℝ)) (b1 : List ℝ)
    (W2 : List (List ℝ)) (b2 : List ℝ)
    (W3 : List (List ℝ)) (b3 : List ℝ)
    (x : List (List (List ℝ))) : List (List ℝ) :=
  (nn.Flatten x).map (nn.Sequential (NeuralNetwork.layout W1 b1 W2 b2 W3 b3))

/-- `target_transform`: `torch.zeros(10).scatter_(0, y, 1)` — a zero vector of
length 10 with position `y` set to 1. -/
def target_transform (y : Nat) : List ℝ := (List.replicate 10 (0 : ℝ)).set y 1

/-- Largest entry of a vector (0 for the empty vector, which never occurs in
the pipeline). -/
def listMax : List ℝ → ℝ
  | [] => 0
  | a :: t => t.foldl max a

/-- Modelled from the spec: the numerically stabilized softmax, which
subtracts the per-axis maximum from every entry before exponentiating; the
stabilization is internal to the framework's `nn.Softmax` and not visible in
the notebook source. -/
noncomputable def softmaxStable (v : List ℝ) : List ℝ :=
  v.map (fun a =>
    Real.exp (a - listMax v) / (v.map (fun c => Real.exp (c - listMax v))).sum)

/-- `argmax` over a vector: index of the first occurrence of the maximum
(auxiliary loop carrying the next index, best index and best value). -/
noncomputable def argmaxAux : List ℝ → Nat → Nat → ℝ → Nat
  | [], _, best, _ => best
  | a :: t, i, best, bv =>
    if bv < a then argmaxAux t (i + 1) i a else argmaxAux t (i + 1) best bv

/-- `Tensor.argmax` along the class axis of one sample: index of the first
occurrence of the maximum entry (0 for the empty vector). -/
noncomputable def argmax : List ℝ → Nat
  | [] => 0
  | a :: t => argmaxAux t 1 0 a

/-- Expected trailing dimension of a linear layer's input: the common length
of the weight matrix's rows. -/
def rowLen (W : List (List ℝ)) : Nat := (W.headD []).length

/-- Modelled from the spec: a transform receiving an input whose trailing
dimension does not match its expected size fails immediately; the shape check
itself is performed inside the framework's layers, not in the notebook
source.  `none` is the failure reported to the caller. -/
def Layer.applyChecked : Layer → List ℝ → Option (List ℝ)
  | Layer.linear W b, x =>
    if x.length = rowLen W then some (nn.Linear W b x) else none
  | Layer.relu, x => some (nn.ReLU x)

/-- Modelled from the spec: the pipeline run with shape checking; a failing
step aborts the whole run (reported, not recovered, no retry). -/
def runChecked : List Layer → List ℝ → Option (List ℝ)
  | [], x => some x
  | l :: t, x =>
    match l.applyChecked x with
    | none => none
    | some y => runChecked t y

/-- Shape discipline of a pipeline against an input length: every linear
layer must receive exactly its expected trailing dimension; the activation
preserves the length. -/
def shapesOk : List Layer → Nat → Bool
  | [], _ => true
  | Layer.linear W b :: t, n =>
    (n == rowLen W) && shapesOk t (min W.length b.length)
  | Layer.relu :: t, n => shapesOk t n

/-- A matrix with `r` rows, each of length `c`. -/
def matShape (M : List (List ℝ)) (r c : Nat) : Prop :=
  M.length = r ∧ ∀ row ∈ M, row.length = c

/-- Written from the spec's formula side for the refinement claim about the
linear layer: `input @ Wᵀ`, whose `(i, j)` entry is the dot product of input
row `i` with weight row `j` (row `j` of `W` is column `j` of `Wᵀ`). -/
def matMulTranspose (X W : List (List ℝ)) : List (List ℝ) :=
  X.map (fun r => W.map (fun w => dot r w))

/-- Written from the spec's formula side: broadcast addition of the bias
vector to every row of a matrix. -/
def addBias (M : List (List ℝ)) (b : List ℝ) : List (List ℝ) :=
  M.map (fun r => List.zipWith (fun a c => a + c) r b)

/-! ### Shared helper lemmas and test fixtures -/

/-- An all-zero vector of length `n`, used to instantiate theorems at
concrete inputs. -/
def zeros (n : Nat) : List ℝ := List.replicate n 0

/-- An all-zero matrix with `r` rows of length `c`. -/
def zeroMat (r c : Nat) : List (List ℝ) := List.replicate r (zeros c)

theorem matShape_zeroMat (r c : Nat) : matShape (zeroMat r c) r c := by
  refine ⟨by simp [zeroMat], ?_⟩
  intro row h
  rw [(List.mem_replicate.mp h).2]
  simp [zeros]

theorem zeros_length (n : Nat) : (zeros n).length = n := by
  simp [zeros]

theorem Linear_length (W : List (List ℝ)) (b : List ℝ) (x : List ℝ) :
    (nn.Linear W b x).length = min W.length b.length := by
  simp [nn.Linear, List.length_zip]

theorem ReLU_length (x : List ℝ) : (nn.ReLU x).length = x.length := by
  simp [nn.ReLU]

/-! ### C7: sequential composition -/

/-- C7: sequential composition is associative — running the concatenation of
two pipelines equals running the first and feeding its output to the second —
and evaluation threads the input through the steps in list order: the output
of the head step is the input of the remaining pipeline. -/
theorem Sequential_append_assoc (l1 l2 : List Layer) (step : Layer)
    (x : List ℝ) :
    nn.Sequential (l1 ++ l2) x = nn.Sequential l2 (nn.Sequential l1 x) ∧
    nn.Sequential (step :: l1) x = nn.Sequential l1 (step.apply x) :=
  ⟨List.foldl_append _ _ _ _, rfl⟩

/-! ### C8: ReLU -/

/-- C8: ReLU computes elementwise `max 0`: it preserves the length, its
output has no negative entry (position `i` arbitrary), and it equals the
input at every position `j` where the input is non-negative. -/
theorem ReLU_eq_max_zero (v : List ℝ) (i j : Nat)
    (hj : 0 ≤ v.getD j 0) :
    (nn.ReLU v).length = v.length ∧ 0 ≤ (nn.ReLU v).getD i 0 ∧
    (nn.ReLU v).getD j 0 = v.getD j 0 := by
  refine ⟨ReLU_length v, ?_, ?_⟩
  · by_cases h : i < (nn.ReLU v).length
    · rw [List.getD_eq_getElem _ _ h]
      simp only [nn.ReLU, List.getElem_map]
      exact le_max_left 0 _
    · rw [List.getD_eq_default _ _ (le_of_not_lt h)]
  · by_cases h : j < v.length
    · have h2 : j < (nn.ReLU v).length := by rw [ReLU_length]; exact h
      rw [List.getD_eq_getElem _ _ h, List.getD_eq_getElem _ _ h2]
      simp only [nn.ReLU, List.getElem_map]
      rw [List.getD_eq_getElem _ _ h] at hj
      exact max_eq_right hj
    · rw [List.getD_eq_default _ _ (le_of_not_lt h),
        List.getD_eq_default]
      rw [ReLU_length]
      exact le_of_not_lt h

/-- Witness for C8 at the concrete vector `[-1, 2]`, positions 0 and 1. -/
theorem ReLU_eq_max_zero_witness :
    (nn.ReLU [-1, 2]).length = ([-1, 2] : List ℝ).length ∧
    0 ≤ (nn.ReLU [-1, 2]).getD 0 0 ∧
    (nn.ReLU [-1, 2]).getD 1 0 = ([-1, 2] : List ℝ).getD 1 0 :=
  ReLU_eq_max_zero [-1, 2] 0 1 (by norm_num [List.getD])

/-! ### C10: one-hot target transform -/

theorem sum_set_replicate :
    ∀ n y : Nat, y < n → ((List.replicate n (0 : ℝ)).set y 1).sum = 1 := by
  intro n
  induction n with
  | zero => intro y hy; exact absurd hy (Nat.not_lt_zero y)
  | succ n ih =>
    intro y hy
    cases y with
    | zero => simp [List.replicate_succ]
    | succ y =>
      rw [List.replicate_succ]
      simp only [List.set_cons_succ, List.sum_cons]
      rw [ih y (Nat.lt_of_succ_lt_succ hy)]
      ring

/-- C10: for a label `y < 10` the target transform is one-hot — a length-10
vector whose entry at `y` is 1, whose entry at any other position `j` is 0,
and whose entries sum to 1. -/
theorem target_transform_one_hot (y j : Nat) (hy : y < 10) (hj : j ≠ y) :
    (target_transform y).length = 10 ∧
    (target_transform y).getD y 0 = 1 ∧
    (target_transform y).getD j 0 = 0 ∧
    (target_transform y).sum = 1 := by
  have hlen : (target_transform y).length = 10 := by
    simp [target_transform]
  refine ⟨hlen, ?_, ?_, sum_set_replicate 10 y hy⟩
  · have hy2 : y < (target_transform y).length := by rw [hlen]; exact hy
    rw [List.getD_eq_getElem _ _ hy2]
    exact List.getElem_set_self _
  · by_cases h : j < (target_transform y).length
    · rw [List.getD_eq_getElem _ _ h]
      unfold target_transform
      rw [List.getElem_set_ne (fun e => hj e.symm)]
      exact List.getElem_replicate _ _
    · rw [List.getD_eq_default _ _ (le_of_not_lt h)]

/-- Witness for C10 at the concrete label 3 and other position 5. -/
theorem target_transform_one_hot_witness :
    (target_transform 3).length = 10 ∧
    (target_transform 3).getD 3 0 = 1 ∧
    (target_transform 3).getD 5 0 = 0 ∧
    (target_transform 3).sum = 1 :=
  target_transform_one_hot 3 5 (by decide) (by decide)

/-! ### C9: shape mismatch is the only error, reported immediately -/

theorem runChecked_isSome (ls : List Layer) :
    ∀ x : List ℝ, (runChecked ls x).isSome = shapesOk ls x.length := by
  induction ls with
  | nil => intro x; rfl
  | cons l t ih =>
    intro x
    cases l with
    | linear W b =>
      by_cases h : x.length = rowLen W
      · simp only [runChecked, Layer.applyChecked, if_pos h, shapesOk]
        rw [ih (nn.Linear W b x), Linear_length]
        simp [h]
      · simp only [runChecked, Layer.applyChecked, if_neg h, shapesOk]
        simp [h]
    | relu =>
      simp only [runChecked, Layer.applyChecked, shapesOk]
      rw [ih (nn.ReLU x), ReLU_length]

/-- C9: in the checked pipeline the run fails (returns `none` to the caller)
exactly when some transform receives an input whose trailing dimension does
not match its expected size — shape mismatch is the only error class — and a
pipeline headed by a linear layer whose expected size differs from the input
length fails immediately, whatever layers follow. -/
theorem shape_mismatch_only_error (ls t : List Layer) (x y : List ℝ)
    (W : List (List ℝ)) (b : List ℝ) (hmis : y.length ≠ rowLen W) :
    ((runChecked ls x = none) ↔ shapesOk ls x.length = false) ∧
    runChecked (Layer.linear W b :: t) y = none := by
  constructor
  · rw [← Option.not_isSome_iff_eq_none, runChecked_isSome]
    simp
  · simp only [runChecked, Layer.applyChecked, if_neg hmis]

/-- Witness for C9: the empty pipeline on the empty input, and a 1×1 linear
layer fed an empty (mismatched) input. -/
theorem shape_mismatch_only_error_witness :
    ((runChecked [] [] = none) ↔ shapesOk [] ([] : List ℝ).length = false) ∧
    runChecked (Layer.linear [[0]] [0] :: []) [] = none :=
  shape_mismatch_only_error [] [] [] [] [[0]] [0] (by decide)

/-! ### C2: linear layer equals input @ Wᵀ + b -/

theorem Linear_eq_zipWith (x : List ℝ) :
    ∀ (W : List (List ℝ)) (b : List ℝ),
      nn.Linear W b x =
        List.zipWith (fun a c => a + c) (W.map (fun w => dot x w)) b := by
  intro W
  induction W with
  | nil => intro b; rfl
  | cons w W ih =>
    intro b
    cases b with
    | nil => simp [nn.Linear]
    | cons c b =>
      simp only [nn.Linear, List.zip_cons_cons, List.map_cons,
        List.zipWith_cons_cons]
      exact congrArg _ (ih b)

/-- C2: for a weight matrix of shape M×N and bias of length M, the linear
layer applied to a batch keeps the batch size, each output row (row `i` of
the batch) has length M, and the whole output equals `input @ Wᵀ + b`. -/
theorem LinearBatch_eq_matMulTranspose_addBias (W : List (List ℝ))
    (b : List ℝ) (X : List (List ℝ)) (M N i : Nat)
    (hW : matShape W M N) (hb : b.length = M) (hi : i < X.length) :
    (nn.LinearBatch W b X).length = X.length ∧
    ((nn.LinearBatch W b X).getD i []).length = M ∧
    nn.LinearBatch W b X = addBias (matMulTranspose X W) b := by
  have hlen : (nn.LinearBatch W b X).length = X.length := by
    simp [nn.LinearBatch]
  refine ⟨hlen, ?_, ?_⟩
  · have hi2 : i < (nn.LinearBatch W b X).length := by rw [hlen]; exact hi
    rw [List.getD_eq_getElem _ _ hi2]
    simp only [nn.LinearBatch, List.getElem_map]
    rw [Linear_length, hW.1, hb]
    exact Nat.min_self M
  · unfold nn.LinearBatch addBias matMulTranspose
    rw [List.map_map]
    exact List.map_congr_left (fun r _ => Linear_eq_zipWith r W b)

/-- Witness for C2: a 2×1 zero weight matrix, zero bias of length 2, and a
one-sample batch. -/
theorem LinearBatch_eq_matMulTranspose_addBias_witness :
    (nn.LinearBatch (zeroMat 2 1) (zeros 2) [zeros 1]).length =
      [zeros 1].length ∧
    ((nn.LinearBatch (zeroMat 2 1) (zeros 2) [zeros 1]).getD 0 []).length =
      2 ∧
    nn.LinearBatch (zeroMat 2 1) (zeros 2) [zeros 1] =
      addBias (matMulTranspose [zeros 1] (zeroMat 2 1)) (zeros 2) :=
  LinearBatch_eq_matMulTranspose_addBias (zeroMat 2 1) (zeros 2) [zeros 1]
    2 1 0 (matShape_zeroMat 2 1) (by simp [zeros]) (by decide)

/-! ### C4, C5, C6: softmax -/

theorem sum_map_exp_pos (v : List ℝ) (hv : v ≠ []) :
    0 < (v.map Real.exp).sum := by
  apply List.sum_pos
  · intro x hx
    obtain ⟨a, _, rfl⟩ := List.mem_map.mp hx
    exact Real.exp_pos a
  · simpa using hv

/-- C4: softmax of a (nonempty) logit vector has every entry non-negative
(position `i` arbitrary) and its entries sum to 1 along the axis. -/
theorem Softmax_nonneg_sum_one (v : List ℝ) (i : Nat) (hv : v ≠ []) :
    0 ≤ (nn.Softmax v).getD i 0 ∧ (nn.Softmax v).sum = 1 := by
  have hS : 0 < (v.map Real.exp).sum := sum_map_exp_pos v hv
  constructor
  · by_cases h : i < (nn.Softmax v).length
    · rw [List.getD_eq_getElem _ _ h]
      simp only [nn.Softmax, List.getElem_map]
      exact div_nonneg (Real.exp_pos _).le hS.le
    · rw [List.getD_eq_default _ _ (le_of_not_lt h)]
  · simp only [nn.Softmax, div_eq_mul_inv]
    rw [List.sum_map_mul_right]
    exact mul_inv_cancel₀ hS.ne'

/-- Witness for C4 at the concrete logit vector `[0, 1]`. -/
theorem Softmax_nonneg_sum_one_witness :
    0 ≤ (nn.Softmax [0, 1]).getD 0 0 ∧ (nn.Softmax [0, 1]).sum = 1 :=
  Softmax_nonneg_sum_one [0, 1] 0 (List.cons_ne_nil 0 [1])

theorem argmaxAux_map (g : ℝ → ℝ) (hg : ∀ a c : ℝ, g a < g c ↔ a < c) :
    ∀ (t : List ℝ) (i best : Nat) (bv : ℝ),
      argmaxAux (t.map g) i best (g bv) = argmaxAux t i best bv := by
  intro t
  induction t with
  | nil => intro i best bv; rfl
  | cons a t ih =>
    intro i best bv
    simp only [List.map_cons, argmaxAux]
    by_cases h : bv < a
    · rw [if_pos ((hg bv a).mpr h), if_pos h]
      exact ih (i + 1) i a
    · rw [if_neg (fun hc => h ((hg bv a).mp hc)), if_neg h]
      exact ih (i + 1) best bv

theorem argmax_map_of_orderIso (g : ℝ → ℝ)
    (hg : ∀ a c : ℝ, g a < g c ↔ a < c) (v : List ℝ) :
    argmax (v.map g) = argmax v := by
  cases v with
  | nil => rfl
  | cons a t =>
    simp only [List.map_cons, argmax]
    exact argmaxAux_map g hg t 1 0 a

/-- C5: softmax is order-preserving — for a (nonempty) logit vector the
argmax taken after softmax equals the argmax of the pre-softmax logits. -/
theorem argmax_Softmax_eq_argmax (v : List ℝ) (hv : v ≠ []) :
    argmax (nn.Softmax v) = argmax v := by
  have hS : 0 < (v.map Real.exp).sum := sum_map_exp_pos v hv
  exact argmax_map_of_orderIso
    (fun a => Real.exp a / (v.map Real.exp).sum)
    (fun a c => by rw [div_lt_div_iff_of_pos_right hS, Real.exp_lt_exp]) v

/-- Witness for C5 at the concrete logit vector `[0, 1]`. -/
theorem argmax_Softmax_eq_argmax_witness :
    argmax (nn.Softmax [0, 1]) = argmax [0, 1] :=
  argmax_Softmax_eq_argmax [0, 1] (List.cons_ne_nil 0 [1])

/-- C6: the numerically stabilized softmax agrees with the direct definition
`output i = exp (input i) / Σ exp (input j)` on every logit vector. -/
theorem softmaxStable_eq_Softmax (v : List ℝ) :
    softmaxStable v = nn.Softmax v := by
  unfold softmaxStable nn.Softmax
  apply List.map_congr_left
  intro a _
  have hexp : ∀ c : ℝ, Real.exp (c - listMax v) =
      Real.exp c * (Real.exp (listMax v))⁻¹ := by
    intro c
    rw [Real.exp_sub, div_eq_mul_inv]
  have hsum : (v.map (fun c => Real.exp (c - listMax v))).sum =
      (v.map Real.exp).sum * (Real.exp (listMax v))⁻¹ := by
    rw [← List.sum_map_mul_right]
    exact congrArg List.sum (List.map_congr_left (fun c _ => hexp c))
  rw [hexp a, hsum]
  exact mul_div_mul_right _ _ (inv_ne_zero (Real.exp_ne_zero _))

/-! ### C3: flatten -/

theorem flatten_length_of_shape (c : Nat) (s : List (List ℝ))
    (hs : ∀ r ∈ s, r.length = c) : s.flatten.length = s.length * c := by
  rw [List.length_flatten]
  have hmap : s.map List.length = List.replicate s.length c := by
    apply List.eq_replicate_iff.mpr
    refine ⟨by simp, ?_⟩
    intro n hn
    obtain ⟨r, hr, rfl⟩ := List.mem_map.mp hn
    exact hs r hr
  rw [hmap, List.sum_replicate, smul_eq_mul]

theorem flatten_getD (c : Nat) :
    ∀ (s : List (List ℝ)) (i j : Nat), (∀ r ∈ s, r.length = c) →
      i < s.length → j < c →
      s.flatten.getD (c * i + j) 0 = (s.getD i []).getD j 0 := by
  intro s
  induction s with
  | nil => intro i j _ hi _; exact absurd hi (Nat.not_lt_zero i)
  | cons r t ih =>
    intro i j hs hi hj
    have hr : r.length = c := hs r (List.mem_cons_self r t)
    cases i with
    | zero =>
      rw [Nat.mul_zero, Nat.zero_add, List.flatten_cons, List.getD_cons_zero,
        List.getD_append _ _ _ j (by rw [hr]; exact hj)]
    | succ i =>
      rw [List.flatten_cons, List.getD_cons_succ,
        List.getD_append_right _ _ _ _ (by rw [hr, Nat.mul_succ]; omega)]
      have harith : c * (i + 1) + j - r.length = c * i + j := by
        rw [hr, Nat.mul_succ]; omega
      rw [harith]
      exact ih i j (fun x hx => hs x (List.mem_cons_of_mem r hx))
        (Nat.lt_of_succ_lt_succ hi) hj

/-- C3: flatten keeps the batch dimension, turns every 28×28 sample into a
vector of length 784, and places the element at grid position `(i, j)` of
sample `k` at output position `28 * i + j` — row-major order. -/
theorem Flatten_shape_row_major (X : List (List (List ℝ))) (k i j : Nat)
    (hX : ∀ s ∈ X, matShape s 28 28) (hk : k < X.length)
    (hi : i < 28) (hj : j < 28) :
    (nn.Flatten X).length = X.length ∧
    ((nn.Flatten X).getD k []).length = 784 ∧
    ((nn.Flatten X).getD k []).getD (28 * i + j) 0 =
      ((X.getD k []).getD i []).getD j 0 := by
  have hlen : (nn.Flatten X).length = X.length := by simp [nn.Flatten]
  have hk2 : k < (nn.Flatten X).length := by rw [hlen]; exact hk
  have hsh := hX X[k] (List.getElem_mem hk)
  have hget : (nn.Flatten X).getD k [] = X[k].flatten := by
    rw [List.getD_eq_getElem _ _ hk2]
    simp [nn.Flatten]
  refine ⟨hlen, ?_, ?_⟩
  · rw [hget, flatten_length_of_shape 28 _ hsh.2, hsh.1]
  · rw [hget, List.getD_eq_getElem X [] hk]
    exact flatten_getD 28 X[k] i j hsh.2 (by rw [hsh.1]; exact hi) hj

/-- Witness for C3: a one-sample batch holding the all-zero 28×28 image,
inspected at grid position (0, 0). -/
theorem Flatten_shape_row_major_witness :
    (nn.Flatten [zeroMat 28 28]).length = [zeroMat 28 28].length ∧
    ((nn.Flatten [zeroMat 28 28]).getD 0 []).length = 784 ∧
    ((nn.Flatten [zeroMat 28 28]).getD 0 []).getD (28 * 0 + 0) 0 =
      (([zeroMat 28 28].getD 0 []).getD 0 []).getD 0 0 :=
  Flatten_shape_row_major [zeroMat 28 28] 0 0 0
    (fun s hs => by
      rw [List.mem_singleton.mp hs]; exact matShape_zeroMat 28 28)
    (by decide) (by decide) (by decide)

/-! ### C1: forward pass output shape -/

/-- C1: with weights of the hard-coded architecture (784→512→512→10), the
forward pass on a batch of 28×28 samples returns one output row per input
sample, and every output row (row `i`) has length 10. -/
theorem forward_shape (W1 : List (List ℝ)) (b1 : List ℝ)
    (W2 : List (List ℝ)) (b2 : List ℝ) (W3 : List (List ℝ)) (b3 : List ℝ)
    (X : List (List (List ℝ))) (i : Nat)
    (hW1 : matShape W1 512 784) (hb1 : b1.length = 512)
    (hW2 : matShape W2 512 512) (hb2 : b2.length = 512)
    (hW3 : matShape W3 10 512) (hb3 : b3.length = 10)
    (hX : ∀ s ∈ X, matShape s 28 28) (hi : i < X.length) :
    (NeuralNetwork.forward W1 b1 W2 b2 W3 b3 X).length = X.length ∧
    ((NeuralNetwork.forward W1 b1 W2 b2 W3 b3 X).getD i []).length = 10 := by
  have hlen :
      (NeuralNetwork.forward W1 b1 W2 b2 W3 b3 X).length = X.length := by
    simp [NeuralNetwork.forward, nn.Flatten]
  refine ⟨hlen, ?_⟩
  have hi2 : i < (NeuralNetwork.forward W1 b1 W2 b2 W3 b3 X).length := by
    rw [hlen]; exact hi
  rw [List.getD_eq_getElem _ _ hi2]
  simp only [NeuralNetwork.forward, nn.Flatten, List.getElem_map]
  simp only [NeuralNetwork.layout, nn.Sequential, List.foldl_cons,
    List.foldl_nil, Layer.apply]
  rw [Linear_length, hW3.1, hb3]
  exact Nat.min_self 10

/-- Witness for C1: all-zero weights of the hard-coded shapes and a
one-sample batch holding the all-zero 28×28 image. -/
theorem forward_shape_witness :
    (NeuralNetwork.forward (zeroMat 512 784) (zeros 512) (zeroMat 512 512)
      (zeros 512) (zeroMat 10 512) (zeros 10) [zeroMat 28 28]).length =
      [zeroMat 28 28].length ∧
    ((NeuralNetwork.forward (zeroMat 512 784) (zeros 512) (zeroMat 512 512)
      (zeros 512) (zeroMat 10 512) (zeros 10) [zeroMat 28 28]).getD 0
      []).length = 10 :=
  forward_shape _ _ _ _ _ _ _ 0 (matShape_zeroMat 512 784) (zeros_length 512)
    (matShape_zeroMat 512 512) (zeros_length 512) (matShape_zeroMat 10 512)
    (zeros_length 10)
    (fun s hs => by
      rw [List.mem_singleton.mp hs]; exact matShape_zeroMat 28 28)
    (by decide)
